import Mathlib

/-!
# Verification of the coffee-can bounded model checker (coffee.py)

This file gives a shallow embedding of the encoder in `coffee.py`: the
boolean variables, the formula builders (`init`, `final`, `uniqueVal`,
`uniqueVals`, `nextStep`, `allTransitions`, `Gries`) and an evaluation
semantics for the produced z3 formulas, together with theorems settling
the specification claims about them.

z3 expressions are modelled by the inductive type `Fml`;
`And([...])`/`Or([...])` over python lists are modelled by `AndL`/`OrL`
(the right fold of the binary connectives, which has exactly the z3
semantics, with `Or([])` false).  Python integers are modelled by `Int`,
python `range(a,b)` by `rangeL a b`, and the `assert` statements of
`Gries` by an `Option` result.  The z3 proposition `Bool(name)` is
identified by its name string; `beanName` models the name built by
`bean`, and by `bean_identity_and_collision_free` below the
(colour, val, step) triple is a faithful key for it, so formulas carry
the triple directly in the structure `BVar`.
-/

/-- A boolean variable of the encoding, identified by colour, value and
step.  In the source this is the z3 proposition named
`'_'+colour+'_'+str(val)+'_'+str(step)` (see `beanName`). -/
structure BVar where
  colour : String
  val : Int
  step : Int
deriving DecidableEq, Repr

/-- Propositional formulas, as built by the source via the z3 API. -/
inductive Fml where
  | var (b : BVar)
  | tt
  | ff
  | and (f g : Fml)
  | or (f g : Fml)
  | not (f : Fml)
  | imp (f g : Fml)
deriving DecidableEq, Repr

/-- z3 `And` over a python list of formulas. -/
def AndL (l : List Fml) : Fml := l.foldr Fml.and Fml.tt

/-- z3 `Or` over a python list of formulas; `Or([])` is false. -/
def OrL (l : List Fml) : Fml := l.foldr Fml.or Fml.ff

/-- Evaluation of a formula under an assignment of the variables. -/
def Fml.eval (ρ : BVar → Bool) : Fml → Bool
  | .var b => ρ b
  | .tt => true
  | .ff => false
  | .and f g => f.eval ρ && g.eval ρ
  | .or f g => f.eval ρ || g.eval ρ
  | .not f => !(f.eval ρ)
  | .imp f g => !(f.eval ρ) || g.eval ρ

/-- coffee.py `bean(colour,val,step)` (line 16): the variable
`(colour,val,step)`. -/
def bean (colour : String) (val step : Int) : Fml := .var ⟨colour, val, step⟩

/-- The name of the z3 proposition built by `bean` (line 25):
`'_'+colour+'_' + str(val) + '_' + str(step)`. -/
def beanName (colour : String) (val step : Int) : String :=
  "_" ++ colour ++ "_" ++ val.repr ++ "_" ++ step.repr

/-- coffee.py `init(x,y)` (line 27): conjunct for the initial state. -/
def init (x y : Int) : Fml := .and (bean "black" x 0) (bean "white" y 0)

/-- coffee.py `final(x,y,n)` (line 33): conjunct for the final state. -/
def final (x y n : Int) : Fml := .and (bean "black" x n) (bean "white" y n)

/-- python `range(a, b)` over the integers. -/
def rangeL (a b : Int) : List Int := (List.range (b - a).toNat).map (fun (i : Nat) => a + (i : Int))

/-- coffee.py `uniqueVal(x0,y0,n)` (line 39): unique value per colour at
step `n`, as pairwise implications over `range(0, x0+y0+1)`. -/
def uniqueVal (x0 y0 n : Int) : Fml :=
  let l1 := (rangeL 0 (x0 + y0 + 1)).flatMap (fun x =>
      ((rangeL 0 (x0 + y0 + 1)).filter (fun x1 => decide (x1 > x))).map (fun x1 =>
        Fml.imp (bean "black" x n) (.not (bean "black" x1 n))))
  let l2 := (rangeL 0 (x0 + y0 + 1)).flatMap (fun y =>
      ((rangeL 0 (x0 + y0 + 1)).filter (fun y1 => decide (y1 > y))).map (fun y1 =>
        Fml.imp (bean "white" y n) (.not (bean "white" y1 n))))
  AndL (l1 ++ l2)

/-- coffee.py `uniqueVals(x0,y0,n0)` (line 53): `uniqueVal` conjoined
over `range(0, n0+1)`. -/
def uniqueVals (x0 y0 n0 : Int) : Fml :=
  AndL ((rangeL 0 (n0 + 1)).map (uniqueVal x0 y0))

/-- coffee.py `nextStep(x,y,n)` (line 59): the transition implication for
configuration `(x,y)` at step `n` and the list of next configurations.
The three `if` branches are translated one to one. -/
def nextStep (x y n : Int) : Fml × List (Int × Int) :=
  let black0 := bean "black" x n
  let white0 := bean "white" y n
  let confs1 : List Fml :=
    if y ≥ 2 then [.and (bean "black" (x + 1) (n + 1)) (bean "white" (y - 2) (n + 1))] else []
  let pts1 : List (Int × Int) := if y ≥ 2 then [(x + 1, y - 2)] else []
  let confs2 : List Fml :=
    if x ≥ 2 ∨ (x ≥ 1 ∧ y ≥ 1) then
      [.and (bean "black" (x - 1) (n + 1)) (bean "white" y (n + 1))] else []
  let pts2 : List (Int × Int) :=
    if x ≥ 2 ∨ (x ≥ 1 ∧ y ≥ 1) then [(x - 1, y)] else []
  let confs3 : List Fml :=
    if (x = 1 ∧ y = 0) ∨ (x = 0 ∧ y = 1) then [.and black0 white0] else []
  (.imp (.and black0 white0) (OrL (confs1 ++ confs2 ++ confs3)), pts1 ++ pts2)

/-- The body of the `for x, y in next_transitions` loop of
`allTransitions` (lines 90 to 93): appends the transition formula of
every in-range configuration and, as in the source, OVERWRITES the
accumulated next worklist with the `NextPoints` of the configuration
just expanded (`next_step, next_transitions_new = nextStep(x, y, n)`). -/
def processList (x0 y0 n : Int) :
    List (Int × Int) → List Fml × List (Int × Int) → List Fml × List (Int × Int)
  | [], acc => acc
  | (x, y) :: rest, (fs, nxt) =>
    if 0 ≤ x ∧ x < x0 + y0 + 1 ∧ 0 ≤ y ∧ y < x0 + y0 + 1 then
      processList x0 y0 n rest (fs ++ [(nextStep x y n).1], (nextStep x y n).2)
    else
      processList x0 y0 n rest (fs, nxt)

/-- The `while next_transitions and n < n0 + 1` loop of `allTransitions`
(lines 88 to 95).  The numeric loop condition `n < n0 + 1` is carried by
the fuel argument, which at entry equals `(n0 + 1 - n).toNat`. -/
def sweep (x0 y0 : Int) : Nat → Int → List (Int × Int) → List Fml
  | 0, _, _ => []
  | fuel + 1, n, worklist =>
    if worklist = [] then []
    else
      let r := processList x0 y0 n worklist ([], [])
      r.1 ++ sweep x0 y0 fuel (n + 1) r.2

/-- coffee.py `allTransitions(x0,y0,n0)` (line 80): all transitions
across all steps, with the reachability pruning of the source. -/
def allTransitions (x0 y0 n0 : Int) : Fml :=
  AndL (sweep x0 y0 (n0 + 1).toNat 0 [(x0, y0)])

/-- The formula built by `Gries(x,y,n)` (line 106) once its asserts have
passed. -/
def griesFml (x y n : Int) : Fml :=
  AndL [init x y, final 0 1 n, allTransitions x y n, uniqueVals x y n]

/-- coffee.py `Gries(x,y,n)` (line 98), with the two asserts (lines 103
and 104) modelled as an `Option` failure, checked in source order before
any construction. -/
def Gries (x y n : Int) : Option Fml :=
  if x + y ≥ 1 then (if n ≥ 0 then some (griesFml x y n) else none) else none

/-- Precondition of transition rule 1 (the `if y >= 2` of line 69). -/
def rule1Applies (x y : Int) : Prop := y ≥ 2

/-- Precondition of transition rule 2 (the
`if x >= 2 or (x >= 1 and y >= 1)` of line 72). -/
def rule2Applies (x y : Int) : Prop := x ≥ 2 ∨ (x ≥ 1 ∧ y ≥ 1)

/-- Precondition of transition rule 3 (the
`if (x == 1 and y == 0) or (x == 0 and y == 1)` of line 75). -/
def rule3Applies (x y : Int) : Prop := (x = 1 ∧ y = 0) ∨ (x = 0 ∧ y = 1)

instance (x y : Int) : Decidable (rule1Applies x y) := by unfold rule1Applies; infer_instance
instance (x y : Int) : Decidable (rule2Applies x y) := by unfold rule2Applies; infer_instance
instance (x y : Int) : Decidable (rule3Applies x y) := by unfold rule3Applies; infer_instance

/-- The next worklist computed by one iteration of the `while` loop of
`allTransitions`, for a given worklist at step `n` (composition of the
source's loop body `processList` with the empty initial accumulators). -/
def stepPoints (x0 y0 n : Int) (wl : List (Int × Int)) : List (Int × Int) :=
  (processList x0 y0 n wl ([], [])).2

/-- The worklist `next_transitions` held by `allTransitions(x0,y0,_)` at
the start of loop iteration `k` (iterating `stepPoints` from the initial
worklist `[(x0, y0)]`). -/
def worklistAt (x0 y0 : Int) : Nat → List (Int × Int)
  | 0 => [(x0, y0)]
  | k + 1 => stepPoints x0 y0 k (worklistAt x0 y0 k)

/-- Modelled from the spec: the loop body of the Reachability Sweep
without the "defensive" range check on the configuration (the spec's
claim is that this check never discards anything). -/
def processListNC (x0 y0 n : Int) :
    List (Int × Int) → List Fml × List (Int × Int) → List Fml × List (Int × Int)
  | [], acc => acc
  | (x, y) :: rest, (fs, _) =>
    processListNC x0 y0 n rest (fs ++ [(nextStep x y n).1], (nextStep x y n).2)

/-- Modelled from the spec: the Reachability Sweep without the defensive
range check. -/
def sweepNC (x0 y0 : Int) : Nat → Int → List (Int × Int) → List Fml
  | 0, _, _ => []
  | fuel + 1, n, worklist =>
    if worklist = [] then []
    else
      let r := processListNC x0 y0 n worklist ([], [])
      r.1 ++ sweepNC x0 y0 fuel (n + 1) r.2

/-- Modelled from the spec: the unpruned variant of the Reachability
Sweep, generating the transition implication of every configuration
`(x,y)` in `[0, x0+y0]` squared at every step in `[0, n0]`. -/
def allTransitionsUnpruned (x0 y0 n0 : Int) : Fml :=
  AndL ((rangeL 0 (n0 + 1)).flatMap (fun n =>
    (rangeL 0 (x0 + y0 + 1)).flatMap (fun x =>
      (rangeL 0 (x0 + y0 + 1)).map (fun y => (nextStep x y n).1))))

/-- A satisfying assignment for `griesFml 10 10 19`: the model takes the
real transition `(10,10) → (11,8)`, then jumps to `(12,6)` at step 2 (a
configuration the buggy sweep never expands, so no constraint leaves
it), is everywhere-false on steps 3 to 18, and ends at `(0,1)`. -/
def asg10 : BVar → Bool := fun b =>
  ([⟨"black", 10, 0⟩, ⟨"white", 10, 0⟩, ⟨"black", 11, 1⟩, ⟨"white", 8, 1⟩,
    ⟨"black", 12, 2⟩, ⟨"white", 6, 2⟩, ⟨"black", 0, 19⟩, ⟨"white", 1, 19⟩] : List BVar).contains b

/-- An assignment satisfying `griesFml 1 0 1`: `(1,0)` at step 0 and
`(0,1)` at step 1, with no transition constraint linking them. -/
def asg101 : BVar → Bool := fun b =>
  ([⟨"black", 1, 0⟩, ⟨"white", 0, 0⟩, ⟨"black", 0, 1⟩, ⟨"white", 1, 1⟩] : List BVar).contains b

/-- An assignment satisfying `griesFml 1 0 2` in which no count variable
at all is true at step 1. -/
def asg102 : BVar → Bool := fun b =>
  ([⟨"black", 1, 0⟩, ⟨"white", 0, 0⟩, ⟨"black", 0, 2⟩, ⟨"white", 1, 2⟩] : List BVar).contains b

/-- An assignment satisfying `griesFml 1 1 1`: the genuine trace
`(1,1) → (0,1)`. -/
def asg111 : BVar → Bool := fun b =>
  ([⟨"black", 1, 0⟩, ⟨"white", 1, 0⟩, ⟨"black", 0, 1⟩, ⟨"white", 1, 1⟩] : List BVar).contains b

/-- An assignment that makes configuration `(3,0)` current at step 2 and
everything else false.  It satisfies the pruned transition conjunction
of `allTransitions 1 4 4` (the sweep never expanded `(3,0)`) but
violates the unpruned one (which contains the implication of `(3,0)` at
step 2, forcing `(2,0)` at step 3). -/
def asg14 : BVar → Bool := fun b =>
  ([⟨"black", 3, 2⟩, ⟨"white", 0, 2⟩] : List BVar).contains b

/-- The numeric value of a decimal digit character. -/
def digitVal (c : Char) : Nat := c.toNat - '0'.toNat

/-- Decode a most-significant-first list of decimal digit characters. -/
def decodeDigits (l : List Char) : Nat := l.foldl (fun a c => 10 * a + digitVal c) 0

/-! ## Basic semantic lemmas -/

theorem eval_AndL (ρ : BVar → Bool) (l : List Fml) :
    Fml.eval ρ (AndL l) = true ↔ ∀ f ∈ l, Fml.eval ρ f = true := by
  induction l with
  | nil => simp [AndL, Fml.eval]
  | cons f fs ih =>
    simp only [AndL, List.foldr_cons] at *
    simp [Fml.eval, Bool.and_eq_true, ih]

theorem eval_OrL (ρ : BVar → Bool) (l : List Fml) :
    Fml.eval ρ (OrL l) = true ↔ ∃ f ∈ l, Fml.eval ρ f = true := by
  induction l with
  | nil => simp [OrL, Fml.eval]
  | cons f fs ih =>
    simp only [OrL, List.foldr_cons] at *
    simp [Fml.eval, Bool.or_eq_true, ih]

theorem mem_rangeL (a lo hi : Int) : a ∈ rangeL lo hi ↔ lo ≤ a ∧ a < hi := by
  simp only [rangeL, List.mem_map, List.mem_range]
  constructor
  · rintro ⟨i, hi, rfl⟩
    omega
  · rintro ⟨h1, h2⟩
    exact ⟨(a - lo).toNat, by omega, by omega⟩

theorem eval_griesFml (ρ : BVar → Bool) (x y n : Int)
    (h : Fml.eval ρ (griesFml x y n) = true) :
    Fml.eval ρ (init x y) = true ∧ Fml.eval ρ (final 0 1 n) = true ∧
    Fml.eval ρ (allTransitions x y n) = true ∧ Fml.eval ρ (uniqueVals x y n) = true := by
  simpa [griesFml, AndL, Fml.eval, Bool.and_eq_true, and_assoc] using h

theorem eval_init (ρ : BVar → Bool) (x y : Int) (h : Fml.eval ρ (init x y) = true) :
    ρ ⟨"black", x, 0⟩ = true ∧ ρ ⟨"white", y, 0⟩ = true := by
  simpa [init, bean, Fml.eval, Bool.and_eq_true] using h

theorem eval_final (ρ : BVar → Bool) (x y n : Int) (h : Fml.eval ρ (final x y n) = true) :
    ρ ⟨"black", x, n⟩ = true ∧ ρ ⟨"white", y, n⟩ = true := by
  simpa [final, bean, Fml.eval, Bool.and_eq_true] using h

theorem Gries_some (x y n : Int) (f : Fml) (h : Gries x y n = some f) :
    f = griesFml x y n ∧ 1 ≤ x + y ∧ 0 ≤ n := by
  unfold Gries at h
  split_ifs at h with h1 h2
  · exact ⟨(Option.some.injEq _ _ ▸ h).symm, by omega, by omega⟩

/-- Any satisfying model of a formula built by `Gries` makes at most one
count variable per colour and step true: the pairwise implications of
`uniqueVal` forbid two distinct values `v < v1` of `[0, x+y]` holding
together at any step of `[0, n]`. -/
theorem griesFml_pairwise (x y n : Int) (ρ : BVar → Bool)
    (h : Fml.eval ρ (griesFml x y n) = true) (hn : 0 ≤ n)
    (c : String) (hc : c = "black" ∨ c = "white")
    (s : Int) (hs0 : 0 ≤ s) (hs1 : s ≤ n)
    (v v1 : Int) (hv0 : 0 ≤ v) (hvv : v < v1) (hv1 : v1 ≤ x + y) :
    ¬(ρ ⟨c, v, s⟩ = true ∧ ρ ⟨c, v1, s⟩ = true) := by
  rintro ⟨hv, hv1t⟩
  obtain ⟨-, -, -, hu⟩ := eval_griesFml ρ x y n h
  have hs : Fml.eval ρ (uniqueVal x y s) = true := by
    refine (eval_AndL ρ _).mp hu _ ?_
    exact List.mem_map.mpr ⟨s, (mem_rangeL s 0 (n + 1)).mpr ⟨hs0, by omega⟩, rfl⟩
  have hmem : (Fml.imp (bean c v s) (.not (bean c v1 s))) ∈
      ((rangeL 0 (x + y + 1)).flatMap (fun a =>
        ((rangeL 0 (x + y + 1)).filter (fun a1 => decide (a1 > a))).map (fun a1 =>
          Fml.imp (bean c a s) (.not (bean c a1 s))))) := by
    refine List.mem_flatMap.mpr ⟨v, (mem_rangeL v 0 (x + y + 1)).mpr ⟨hv0, by omega⟩, ?_⟩
    refine List.mem_map.mpr ⟨v1, List.mem_filter.mpr ⟨(mem_rangeL v1 0 (x + y + 1)).mpr ⟨by omega, by omega⟩, by simpa using hvv⟩, rfl⟩
  have himp : Fml.eval ρ (.imp (bean c v s) (.not (bean c v1 s))) = true := by
    refine (eval_AndL ρ _).mp hs _ ?_
    rcases hc with rfl | rfl
    · exact List.mem_append.mpr (Or.inl hmem)
    · exact List.mem_append.mpr (Or.inr hmem)
  simp [Fml.eval, bean, hv, hv1t] at himp

/-- If a satisfying model of a `Gries` formula makes the count variable
`(c, w, s)` true, that value `w` is the unique one in `[0, x+y]` true at
`(c, s)`. -/
theorem griesFml_pinned (x y n : Int) (ρ : BVar → Bool)
    (h : Fml.eval ρ (griesFml x y n) = true) (hn : 0 ≤ n)
    (c : String) (hc : c = "black" ∨ c = "white")
    (s : Int) (hs0 : 0 ≤ s) (hs1 : s ≤ n)
    (w : Int) (hw0 : 0 ≤ w) (hw1 : w ≤ x + y) (hwt : ρ ⟨c, w, s⟩ = true) :
    ∀ v : Int, 0 ≤ v → v ≤ x + y → (ρ ⟨c, v, s⟩ = true ↔ v = w) := by
  intro v h0 h1
  constructor
  · intro hvt
    by_contra hne
    rcases lt_or_gt_of_ne hne with hlt | hgt
    · exact griesFml_pairwise x y n ρ h hn c hc s hs0 hs1 v w h0 hlt hw1 ⟨hvt, hwt⟩
    · exact griesFml_pairwise x y n ρ h hn c hc s hs0 hs1 w v hw0 hgt h1 ⟨hwt, hvt⟩
  · rintro rfl
    exact hwt

theorem eval_imp_self (ρ : BVar → Bool) (f : Fml) :
    Fml.eval ρ (.imp f (OrL [f])) = true := by
  cases h : Fml.eval ρ f <;> simp [Fml.eval, OrL, h]

/-! ## Claim theorems -/

/-- C9: `Gries(x,y,n)` fails (the assert raises) if and only if
`x + y < 1` or `n < 0`; the asserts run before any construction, so on
failure no part of the formula is built (the `none` branch).  In
particular `x + y = 0` fails. -/
theorem gries_invalid_argument_iff :
    ∀ x y n : Int, Gries x y n = none ↔ x + y < 1 ∨ n < 0 := by
  intro x y n
  unfold Gries
  split_ifs with h1 h2 <;> simp <;> omega

/-- C7: every next configuration produced by `nextStep(x,y,n)` for a
configuration with `x + y ≥ 1` has total exactly `x + y - 1` (rules 1
and 2), hence non-increasing total; rule 3 produces no next point,
keeps the configuration unchanged, and its total is exactly `1`. -/
theorem nextStep_total_decreasing :
    ∀ x y n : Int, x + y ≥ 1 →
      (∀ p ∈ (nextStep x y n).2, p.1 + p.2 = x + y - 1 ∧ p.1 + p.2 ≤ x + y) ∧
      (rule3Applies x y → (nextStep x y n).2 = [] ∧ x + y = 1) := by
  intro x y n hxy
  have hpts : (nextStep x y n).2 =
      (if y ≥ 2 then [(x + 1, y - 2)] else []) ++
      (if x ≥ 2 ∨ (x ≥ 1 ∧ y ≥ 1) then [(x - 1, y)] else []) := rfl
  constructor
  · intro p hp
    obtain ⟨p1, p2⟩ := p
    rw [hpts] at hp
    rcases List.mem_append.mp hp with h | h <;> split_ifs at h <;>
      simp only [List.mem_singleton, List.not_mem_nil, Prod.mk.injEq] at h <;>
      · obtain ⟨rfl, rfl⟩ := h
        exact ⟨by omega, by omega⟩
  · intro h3
    simp only [rule3Applies] at h3
    rcases h3 with ⟨rfl, rfl⟩ | ⟨rfl, rfl⟩ <;> exact ⟨rfl, by decide⟩

theorem nextStep_total_decreasing_witness :
    (3 : Int) + (0 : Int) = 2 + 2 - 1 ∧ (3 : Int) + (0 : Int) ≤ 2 + 2 :=
  (nextStep_total_decreasing 2 2 0 (by decide)).1 (3, 0) (by decide)

/-- C4 counterexample: at configuration `(2,2)` the preconditions of
rule 1 and rule 2 both hold, and the returned next-point list contains
the branches of both rules, so the preconditions are not pairwise
mutually exclusive as claimed. -/
theorem rules_one_and_two_not_exclusive :
    rule1Applies 2 2 ∧ rule2Applies 2 2 ∧ (nextStep 2 2 0).2 = [(3, 0), (1, 2)] :=
  ⟨by decide, by decide, by decide⟩

/-- C4 amended: the exclusivity that does hold: rule 3's precondition is
mutually exclusive with those of rules 1 and 2 (rules 1 and 2 may fire
together, as the counterexample shows), and under rule 3 the returned
next-point list is empty. -/
theorem rule3_exclusive_with_rules_one_two :
    ∀ x y n : Int, x + y ≥ 1 → rule3Applies x y →
      ¬rule1Applies x y ∧ ¬rule2Applies x y ∧ (nextStep x y n).2 = [] := by
  intro x y n hxy h3
  simp only [rule3Applies] at h3
  rcases h3 with ⟨rfl, rfl⟩ | ⟨rfl, rfl⟩ <;>
    exact ⟨by simp only [rule1Applies]; omega, by simp only [rule2Applies]; omega, rfl⟩

theorem rule3_exclusive_with_rules_one_two_witness :
    ¬rule1Applies 0 1 ∧ ¬rule2Applies 0 1 ∧ (nextStep 0 1 5).2 = [] :=
  rule3_exclusive_with_rules_one_two 0 1 5 (by decide) (by decide)

/-- C6: for the terminal configurations `(1,0)` and `(0,1)` the
implication returned by `nextStep` has its self-loop disjunct built
over the step-`n` variables (the antecedent itself), so it is a
tautology (true under every assignment, hence no constraint on the
step-`n+1` state), and the returned next-point list is empty. -/
theorem nextStep_self_loop_tautology :
    ∀ n : Int,
      nextStep 1 0 n =
        (.imp (.and (bean "black" 1 n) (bean "white" 0 n))
          (OrL [.and (bean "black" 1 n) (bean "white" 0 n)]), []) ∧
      nextStep 0 1 n =
        (.imp (.and (bean "black" 0 n) (bean "white" 1 n))
          (OrL [.and (bean "black" 0 n) (bean "white" 1 n)]), []) ∧
      ∀ ρ : BVar → Bool,
        Fml.eval ρ (nextStep 1 0 n).1 = true ∧ Fml.eval ρ (nextStep 0 1 n).1 = true := by
  intro n
  exact ⟨rfl, rfl, fun ρ => ⟨eval_imp_self ρ _, eval_imp_self ρ _⟩⟩

/-- C3 counterexample: `Gries 1 0 2` has a satisfying model (`asg102`)
in which, at the intermediate step 1, no count variable of the domain
`[0, x+y] = [0,1]` is true for either kind, so "exactly one" fails
(only "at most one" holds). -/
theorem gries_exactly_one_fails_at_intermediate_step :
    Gries 1 0 2 = some (griesFml 1 0 2) ∧
    Fml.eval asg102 (griesFml 1 0 2) = true ∧
    asg102 ⟨"black", 0, 1⟩ = false ∧ asg102 ⟨"black", 1, 1⟩ = false ∧
    asg102 ⟨"white", 0, 1⟩ = false ∧ asg102 ⟨"white", 1, 1⟩ = false :=
  ⟨rfl, by decide, by decide, by decide, by decide, by decide⟩

/-- C3 amended: in every satisfying model of a formula returned by
`Gries`, for every step in `[0,n]` and each kind, AT MOST one count
variable with value in `[0, x+y]` is true (the pairwise uniqueness
constraints); exactly-one fails at intermediate steps, see the
counterexample. -/
theorem gries_at_most_one_per_kind_step :
    ∀ x y n : Int, ∀ f : Fml, Gries x y n = some f → ∀ ρ : BVar → Bool,
      Fml.eval ρ f = true →
      ∀ c : String, c = "black" ∨ c = "white" →
      ∀ s : Int, 0 ≤ s → s ≤ n →
      ∀ v v1 : Int, 0 ≤ v → v < v1 → v1 ≤ x + y →
        ¬(ρ ⟨c, v, s⟩ = true ∧ ρ ⟨c, v1, s⟩ = true) := by
  intro x y n f hf ρ h c hc s hs0 hs1 v v1 hv0 hvv hv1
  obtain ⟨rfl, -, hn⟩ := Gries_some x y n f hf
  exact griesFml_pairwise x y n ρ h hn c hc s hs0 hs1 v v1 hv0 hvv hv1

theorem gries_at_most_one_per_kind_step_witness :
    ¬(asg111 ⟨"black", 0, 0⟩ = true ∧ asg111 ⟨"black", 1, 0⟩ = true) :=
  gries_at_most_one_per_kind_step 1 1 1 (griesFml 1 1 1) rfl asg111 (by decide)
    "black" (Or.inl rfl) 0 (by decide) (by decide) 0 1 (by decide) (by decide) (by decide)

/-- C2: the sweep of `allTransitions` drops produced configurations: for
input `(x0,y0) = (1,4)` with the default bound `n0 = 4`, configuration
`(2,2)` is expanded at step 1 (its implication is in the sweep's list)
and produces `(3,0)` as a next configuration, yet the step-2 worklist is
only `[(1,2)]` (the inner loop overwrote it) and the implication of
`(3,0)` at step 2 is never generated; consequently the pruned
conjunction is NOT semantically equivalent to the unpruned variant:
assignment `asg14` satisfies `allTransitions 1 4 4` but falsifies
`allTransitionsUnpruned 1 4 4`. -/
theorem sweep_drops_produced_configuration :
    (nextStep 2 2 1).1 ∈ sweep 1 4 ((4 : Int) + 1).toNat 0 [(1, 4)] ∧
    (3, 0) ∈ (nextStep 2 2 1).2 ∧
    worklistAt 1 4 2 = [(1, 2)] ∧
    (nextStep 3 0 2).1 ∉ sweep 1 4 ((4 : Int) + 1).toNat 0 [(1, 4)] ∧
    Fml.eval asg14 (allTransitions 1 4 4) = true ∧
    Fml.eval asg14 (allTransitionsUnpruned 1 4 4) = false :=
  ⟨by decide, by decide, by decide, by decide, by decide, by decide⟩

/-- C1: at bound 0 the formula for `(1,0)` is unsatisfiable (so the
claim is right there), but at bound 1 the code's formula is satisfiable
(model `asg101`), because the rule-3 self-loop places no constraint on
later steps — contradicting the claimed UNREACHABLE at every bound
`n ≥ 1`. -/
theorem gries_one_zero_unsat_bound0_sat_bound1 :
    (∀ ρ : BVar → Bool, Fml.eval ρ (griesFml 1 0 0) = false) ∧
    Gries 1 0 1 = some (griesFml 1 0 1) ∧
    Fml.eval asg101 (griesFml 1 0 1) = true := by
  refine ⟨?_, rfl, by decide⟩
  intro ρ
  cases hev : Fml.eval ρ (griesFml 1 0 0) with
  | false => rfl
  | true =>
    exfalso
    obtain ⟨hi, hf, -, -⟩ := eval_griesFml ρ 1 0 0 hev
    have h1 := (eval_init ρ 1 0 hi).1
    have h0 := (eval_final ρ 0 1 0 hf).1
    exact griesFml_pairwise 1 0 0 ρ hev (by norm_num) "black" (Or.inl rfl) 0 le_rfl le_rfl
      0 1 le_rfl (by norm_num) (by norm_num) ⟨h0, h1⟩

set_option maxRecDepth 100000 in
set_option maxHeartbeats 2000000 in
/-- C5: `Gries(10,10,19)` (the default driver input and bound) is
satisfiable — so the solver answers SAT and `main` reports the last bean
can be white, with a witness trace read off the model — and in every
satisfying model the step-0 configuration is exactly `(10,10)` and the
step-19 configuration exactly `(0,1)` (each endpoint count variable is
true at exactly its fixed value over the domain `[0, 20]`). -/
theorem gries_ten_ten_reachable :
    Gries 10 10 19 = some (griesFml 10 10 19) ∧
    Fml.eval asg10 (griesFml 10 10 19) = true ∧
    ∀ ρ : BVar → Bool, Fml.eval ρ (griesFml 10 10 19) = true →
      ∀ v : Int, 0 ≤ v → v ≤ 20 →
        (ρ ⟨"black", v, 0⟩ = true ↔ v = 10) ∧ (ρ ⟨"white", v, 0⟩ = true ↔ v = 10) ∧
        (ρ ⟨"black", v, 19⟩ = true ↔ v = 0) ∧ (ρ ⟨"white", v, 19⟩ = true ↔ v = 1) := by
  refine ⟨rfl, by decide, ?_⟩
  intro ρ h v hv0 hv1
  obtain ⟨hi, hf, -, -⟩ := eval_griesFml ρ 10 10 19 h
  obtain ⟨hb0, hw0⟩ := eval_init ρ 10 10 hi
  obtain ⟨hb19, hw19⟩ := eval_final ρ 0 1 19 hf
  refine ⟨?_, ?_, ?_, ?_⟩
  · exact griesFml_pinned 10 10 19 ρ h (by norm_num) "black" (Or.inl rfl) 0 le_rfl
      (by norm_num) 10 (by norm_num) (by norm_num) hb0 v hv0 (by omega)
  · exact griesFml_pinned 10 10 19 ρ h (by norm_num) "white" (Or.inr rfl) 0 le_rfl
      (by norm_num) 10 (by norm_num) (by norm_num) hw0 v hv0 (by omega)
  · exact griesFml_pinned 10 10 19 ρ h (by norm_num) "black" (Or.inl rfl) 19 (by norm_num)
      le_rfl 0 le_rfl (by norm_num) hb19 v hv0 (by omega)
  · exact griesFml_pinned 10 10 19 ρ h (by norm_num) "white" (Or.inr rfl) 19 (by norm_num)
      le_rfl 1 (by norm_num) (by norm_num) hw19 v hv0 (by omega)

set_option maxRecDepth 100000 in
set_option maxHeartbeats 2000000 in
theorem gries_ten_ten_reachable_witness :
    asg10 ⟨"black", 0, 19⟩ = true ↔ (0 : Int) = 0 :=
  (gries_ten_ten_reachable.2.2 asg10 gries_ten_ten_reachable.2.1 0 (by decide)
    (by decide)).2.2.1

/-! ## C8: the sweep stays inside the value range -/

theorem nextStep_points_bounded (x y n S : Int) (hx : 0 ≤ x) (hy : 0 ≤ y)
    (hS : x + y ≤ S) :
    ∀ p ∈ (nextStep x y n).2, 0 ≤ p.1 ∧ 0 ≤ p.2 ∧ p.1 + p.2 ≤ S := by
  intro p hp
  obtain ⟨p1, p2⟩ := p
  have hpts : (nextStep x y n).2 =
      (if y ≥ 2 then [(x + 1, y - 2)] else []) ++
      (if x ≥ 2 ∨ (x ≥ 1 ∧ y ≥ 1) then [(x - 1, y)] else []) := rfl
  rw [hpts] at hp
  rcases List.mem_append.mp hp with h | h <;> split_ifs at h with hc <;>
    simp only [List.mem_singleton, List.not_mem_nil, Prod.mk.injEq] at h <;>
    · obtain ⟨rfl, rfl⟩ := h
      exact ⟨by omega, by omega, by omega⟩

theorem processList_eq_NC (x0 y0 n : Int) (wl : List (Int × Int)) :
    ∀ (fs : List Fml) (nxt : List (Int × Int)),
      (∀ p ∈ wl, 0 ≤ p.1 ∧ 0 ≤ p.2 ∧ p.1 + p.2 ≤ x0 + y0) →
      (∀ p ∈ nxt, 0 ≤ p.1 ∧ 0 ≤ p.2 ∧ p.1 + p.2 ≤ x0 + y0) →
      processList x0 y0 n wl (fs, nxt) = processListNC x0 y0 n wl (fs, nxt) ∧
      ∀ p ∈ (processList x0 y0 n wl (fs, nxt)).2,
        0 ≤ p.1 ∧ 0 ≤ p.2 ∧ p.1 + p.2 ≤ x0 + y0 := by
  induction wl with
  | nil => exact fun fs nxt _ hn => ⟨rfl, hn⟩
  | cons hd rest ih =>
    obtain ⟨x, y⟩ := hd
    intro fs nxt hw hn
    have hx := hw (x, y) (List.mem_cons_self _ _)
    have h1 : 0 ≤ x := hx.1
    have h2 : 0 ≤ y := hx.2.1
    have h3 : x + y ≤ x0 + y0 := hx.2.2
    have hrest : ∀ p ∈ rest, 0 ≤ p.1 ∧ 0 ≤ p.2 ∧ p.1 + p.2 ≤ x0 + y0 :=
      fun p hp => hw p (List.mem_cons_of_mem _ hp)
    have hcond : 0 ≤ x ∧ x < x0 + y0 + 1 ∧ 0 ≤ y ∧ y < x0 + y0 + 1 :=
      ⟨h1, by omega, h2, by omega⟩
    have e1 : processList x0 y0 n ((x, y) :: rest) (fs, nxt) =
        processList x0 y0 n rest (fs ++ [(nextStep x y n).1], (nextStep x y n).2) := by
      rw [processList, if_pos hcond]
    have e2 : processListNC x0 y0 n ((x, y) :: rest) (fs, nxt) =
        processListNC x0 y0 n rest (fs ++ [(nextStep x y n).1], (nextStep x y n).2) := by
      rw [processListNC]
    have hnxt := nextStep_points_bounded x y n (x0 + y0) h1 h2 h3
    obtain ⟨ihe, ihb⟩ := ih (fs ++ [(nextStep x y n).1]) (nextStep x y n).2 hrest hnxt
    exact ⟨by rw [e1, e2, ihe], by rw [e1]; exact ihb⟩

theorem sweep_eq_NC (x0 y0 : Int) :
    ∀ (fuel : Nat) (n : Int) (wl : List (Int × Int)),
      (∀ p ∈ wl, 0 ≤ p.1 ∧ 0 ≤ p.2 ∧ p.1 + p.2 ≤ x0 + y0) →
      sweep x0 y0 fuel n wl = sweepNC x0 y0 fuel n wl := by
  intro fuel
  induction fuel with
  | zero => intro n wl hw; rfl
  | succ f ih =>
    intro n wl hw
    by_cases hemp : wl = []
    · subst hemp; rfl
    · obtain ⟨pe, pb⟩ :=
        processList_eq_NC x0 y0 n wl [] [] hw (by intro p hp; simp at hp)
      simp only [sweep, sweepNC]
      rw [if_neg hemp, if_neg hemp, ← pe, ih (n + 1) _ pb]

theorem worklistAt_bounded (x0 y0 : Int) (hx : 0 ≤ x0) (hy : 0 ≤ y0) :
    ∀ k : Nat, ∀ p ∈ worklistAt x0 y0 k, 0 ≤ p.1 ∧ 0 ≤ p.2 ∧ p.1 + p.2 ≤ x0 + y0 := by
  intro k
  induction k with
  | zero =>
    intro p hp
    simp only [worklistAt, List.mem_singleton] at hp
    subst hp
    exact ⟨hx, hy, le_rfl⟩
  | succ k ih =>
    intro p hp
    simp only [worklistAt, stepPoints] at hp
    exact (processList_eq_NC x0 y0 k (worklistAt x0 y0 k) [] [] ih (by simp)).2 p hp

/-- C8: for non-negative inputs with `x0 + y0 ≥ 1`, every configuration
the sweep ever holds in its worklist, and every next configuration
produced from one, has both components within `[0, x0 + y0]`; hence the
range check of `allTransitions` discards nothing: the sweep equals the
check-free variant `sweepNC` on the whole run. -/
theorem sweep_in_range_and_check_redundant :
    ∀ x0 y0 n0 : Int, 0 ≤ x0 → 0 ≤ y0 → 1 ≤ x0 + y0 →
      (∀ k : Nat, ∀ p ∈ worklistAt x0 y0 k,
        0 ≤ p.1 ∧ p.1 ≤ x0 + y0 ∧ 0 ≤ p.2 ∧ p.2 ≤ x0 + y0) ∧
      (∀ k : Nat, ∀ c ∈ worklistAt x0 y0 k, ∀ p ∈ (nextStep c.1 c.2 (k : Int)).2,
        0 ≤ p.1 ∧ p.1 ≤ x0 + y0 ∧ 0 ≤ p.2 ∧ p.2 ≤ x0 + y0) ∧
      allTransitions x0 y0 n0 = AndL (sweepNC x0 y0 (n0 + 1).toNat 0 [(x0, y0)]) := by
  intro x0 y0 n0 hx hy hs
  have hb := worklistAt_bounded x0 y0 hx hy
  refine ⟨?_, ?_, ?_⟩
  · intro k p hp
    obtain ⟨g1, g2, g3⟩ := hb k p hp
    exact ⟨g1, by omega, g2, by omega⟩
  · intro k c hc p hp
    obtain ⟨h1, h2, h3⟩ := hb k c hc
    obtain ⟨g1, g2, g3⟩ := nextStep_points_bounded c.1 c.2 (k : Int) (x0 + y0) h1 h2 h3 p hp
    exact ⟨g1, by omega, g2, by omega⟩
  · have e : sweep x0 y0 (n0 + 1).toNat 0 [(x0, y0)] =
        sweepNC x0 y0 (n0 + 1).toNat 0 [(x0, y0)] := by
      apply sweep_eq_NC
      intro p hp
      simp only [List.mem_singleton] at hp
      subst hp
      exact ⟨hx, hy, le_rfl⟩
    rw [allTransitions, e]

theorem sweep_in_range_and_check_redundant_witness :
    allTransitions 2 1 2 = AndL (sweepNC 2 1 ((2 : Int) + 1).toNat 0 [(2, 1)]) :=
  (sweep_in_range_and_check_redundant 2 1 2 (by decide) (by decide) (by decide)).2.2

/-! ## C10: the variable naming scheme is deterministic and collision free -/

theorem digitVal_digitChar (m : Nat) (h : m < 10) : digitVal (Nat.digitChar m) = m := by
  interval_cases m <;> rfl

theorem digitChar_ne_underscore (m : Nat) (h : m < 10) : Nat.digitChar m ≠ '_' := by
  interval_cases m <;> decide

theorem toDigitsCore_foldl (fuel : Nat) :
    ∀ (n : Nat) (ds : List Char), n < fuel →
      List.foldl (fun a c => 10 * a + digitVal c) 0 (Nat.toDigitsCore 10 fuel n ds) =
      List.foldl (fun a c => 10 * a + digitVal c) n ds := by
  induction fuel with
  | zero => intro n ds h; omega
  | succ f ih =>
    intro n ds h
    simp only [Nat.toDigitsCore]
    split_ifs with h0
    · have hn : n % 10 = n := by omega
      simp only [List.foldl_cons, Nat.mul_zero, Nat.zero_add]
      rw [digitVal_digitChar (n % 10) (by omega), hn]
    · have hlt : n / 10 < f := by omega
      rw [ih (n / 10) (Nat.digitChar (n % 10) :: ds) hlt]
      simp only [List.foldl_cons]
      rw [digitVal_digitChar (n % 10) (by omega)]
      congr 1
      omega

theorem decode_toDigits (n : Nat) : decodeDigits (Nat.toDigits 10 n) = n := by
  unfold Nat.toDigits decodeDigits
  rw [toDigitsCore_foldl (n + 1) n [] (Nat.lt_succ_self n)]
  rfl

theorem toDigits_injective (a b : Nat) (h : Nat.toDigits 10 a = Nat.toDigits 10 b) :
    a = b := by
  have := decode_toDigits a
  rw [h, decode_toDigits b] at this
  omega

theorem mem_toDigitsCore (fuel : Nat) :
    ∀ (n : Nat) (ds : List Char) (c : Char), c ∈ Nat.toDigitsCore 10 fuel n ds →
      c ∈ ds ∨ ∃ m, m < 10 ∧ c = Nat.digitChar m := by
  induction fuel with
  | zero => intro n ds c h; exact Or.inl h
  | succ f ih =>
    intro n ds c h
    simp only [Nat.toDigitsCore] at h
    split_ifs at h with h0
    · rcases List.mem_cons.mp h with h | h
      · exact Or.inr ⟨n % 10, by omega, h⟩
      · exact Or.inl h
    · rcases ih (n / 10) (Nat.digitChar (n % 10) :: ds) c h with h | h
      · rcases List.mem_cons.mp h with h | h
        · exact Or.inr ⟨n % 10, by omega, h⟩
        · exact Or.inl h
      · exact Or.inr h

theorem toDigits_no_underscore (n : Nat) (c : Char) (h : c ∈ Nat.toDigits 10 n) :
    c ≠ '_' := by
  rcases mem_toDigitsCore (n + 1) n [] c h with h | ⟨m, hm, rfl⟩
  · simp at h
  · exact digitChar_ne_underscore m hm

theorem split_at_underscore (a : List Char) :
    ∀ (b r s : List Char), '_' ∉ a → '_' ∉ b → a ++ '_' :: r = b ++ '_' :: s →
      a = b ∧ r = s := by
  induction a with
  | nil =>
    intro b r s _ hb h
    cases b with
    | nil => simpa using h
    | cons y ys =>
      simp only [List.nil_append, List.cons_append, List.cons.injEq] at h
      exact absurd (List.mem_cons_self y ys) (h.1 ▸ hb)
  | cons x xs ih =>
    intro b r s ha hb h
    cases b with
    | nil =>
      simp only [List.cons_append, List.nil_append, List.cons.injEq] at h
      exact absurd (List.mem_cons_self x xs) (h.1 ▸ ha)
    | cons y ys =>
      simp only [List.cons_append, List.cons.injEq] at h
      obtain ⟨rfl, h2⟩ := h
      have := ih ys r s (fun hm => ha (List.mem_cons_of_mem _ hm))
        (fun hm => hb (List.mem_cons_of_mem _ hm)) h2
      exact ⟨by rw [this.1], this.2⟩

theorem string_eq_of_data (s t : String) (h : s.data = t.data) : s = t := by
  cases s; cases t; exact congrArg String.mk h

theorem beanName_data (c : String) (v s : Nat) :
    (beanName c (v : Int) (s : Int)).data =
      '_' :: (c.data ++ '_' :: (Nat.toDigits 10 v ++ '_' :: Nat.toDigits 10 s)) := by
  have h1 : (Int.repr (v : Int)).data = Nat.toDigits 10 v := rfl
  have h2 : (Int.repr (s : Int)).data = Nat.toDigits 10 s := rfl
  simp [beanName, String.data_append, h1, h2, List.append_assoc]

/-- C10: the variable name built by `bean` is identity-stable (identical
arguments give the same name, hence the same z3 proposition) and
collision-free: over the valid colours and non-negative values and
steps, two names coincide exactly when the argument triples do — in
particular no string-formatting collision such as value 10 against
value 1 followed by step 0 is possible. -/
theorem bean_identity_and_collision_free :
    ∀ c1 c2 : String, (c1 = "black" ∨ c1 = "white") → (c2 = "black" ∨ c2 = "white") →
    ∀ v1 s1 v2 s2 : Nat,
      beanName c1 (v1 : Int) (s1 : Int) = beanName c1 (v1 : Int) (s1 : Int) ∧
      (beanName c1 (v1 : Int) (s1 : Int) = beanName c2 (v2 : Int) (s2 : Int) ↔
        (c1 = c2 ∧ v1 = v2 ∧ s1 = s2)) := by
  intro c1 c2 hc1 hc2 v1 s1 v2 s2
  refine ⟨rfl, ?_, ?_⟩
  · intro h
    have hd := congrArg String.data h
    rw [beanName_data, beanName_data] at hd
    simp only [List.cons.injEq, true_and] at hd
    have hsplit : ∀ X Y : List Char,
        Nat.toDigits 10 v1 ++ '_' :: Nat.toDigits 10 s1 = X ++ '_' :: Y →
        '_' ∉ X → Nat.toDigits 10 v1 = X ∧ Nat.toDigits 10 s1 = Y := by
      intro X Y hXY hX
      exact split_at_underscore (Nat.toDigits 10 v1) X (Nat.toDigits 10 s1) Y
        (fun hm => toDigits_no_underscore v1 '_' hm rfl) hX hXY
    rcases hc1 with rfl | rfl <;> rcases hc2 with rfl | rfl
    · have hA : Nat.toDigits 10 v1 ++ '_' :: Nat.toDigits 10 s1 =
          Nat.toDigits 10 v2 ++ '_' :: Nat.toDigits 10 s2 := by
        have := List.append_cancel_left hd
        simpa using this
      obtain ⟨e1, e2⟩ := hsplit _ _ hA (fun hm => toDigits_no_underscore v2 '_' hm rfl)
      exact ⟨rfl, toDigits_injective _ _ e1, toDigits_injective _ _ e2⟩
    · exfalso
      simp only [show ("black" : String).data = ['b', 'l', 'a', 'c', 'k'] from rfl,
        show ("white" : String).data = ['w', 'h', 'i', 't', 'e'] from rfl,
        List.cons_append, List.nil_append, List.cons.injEq] at hd
      exact absurd hd.1 (by decide)
    · exfalso
      simp only [show ("black" : String).data = ['b', 'l', 'a', 'c', 'k'] from rfl,
        show ("white" : String).data = ['w', 'h', 'i', 't', 'e'] from rfl,
        List.cons_append, List.nil_append, List.cons.injEq] at hd
      exact absurd hd.1 (by decide)
    · have hA : Nat.toDigits 10 v1 ++ '_' :: Nat.toDigits 10 s1 =
          Nat.toDigits 10 v2 ++ '_' :: Nat.toDigits 10 s2 := by
        have := List.append_cancel_left hd
        simpa using this
      obtain ⟨e1, e2⟩ := hsplit _ _ hA (fun hm => toDigits_no_underscore v2 '_' hm rfl)
      exact ⟨rfl, toDigits_injective _ _ e1, toDigits_injective _ _ e2⟩
  · rintro ⟨rfl, rfl, rfl⟩
    rfl

theorem bean_identity_and_collision_free_witness :
    (beanName "black" ((10 : Nat) : Int) ((0 : Nat) : Int) =
      beanName "black" ((1 : Nat) : Int) ((0 : Nat) : Int)) ↔
    ("black" = "black" ∧ (10 : Nat) = 1 ∧ (0 : Nat) = 0) :=
  (bean_identity_and_collision_free "black" "black" (Or.inl rfl) (Or.inl rfl) 10 0 1 0).2
